import Mathlib

/-!
Shallow embedding of the snark-benchmarks repository:
`src/bellman_mimc/src/main.rs` (MiMC cipher circuit plus reference evaluator)
and `src/bellman_sha256/src/main.rs` (SHA-256 circuit), over an abstract
field `F` standing for the BN256 scalar field.

The bellman `ConstraintSystem` backends are modelled by a single state
record `CS` with a flag `evalValues`: `false` models the key-generation
assembly used for shape-only builds (value closures are ignored), `true`
models the proving assignment used for witness-carrying builds (value
closures are evaluated; a missing value is `SynthesisError::AssignmentMissing`).
Rust panics (`assert_eq!`, `Result::unwrap` on an `Err`) are modelled as the
distinguished errors `SynthErr.assertFailed` / `SynthErr.panicUnwrap`.
-/

set_option linter.unusedSectionVars false

set_option linter.unusedVariables false

namespace SnarkBench

/-- `bellman::Variable`: either `Index::Input n` (public; `input 0` is the
constant-one term) or `Index::Aux n` (witness). -/
inductive Var : Type where
  | input : Nat → Var
  | aux : Nat → Var
deriving DecidableEq, Repr

/-- A linear combination: a list of (coefficient, variable) pairs; a constant
term is written against `Var.input 0` (the constant one), as bellman does. -/
abbrev LinComb (F : Type) : Type := List (F × Var)

/-- One R1CS constraint `A * B = C`. -/
structure Constraint (F : Type) where
  A : LinComb F
  B : LinComb F
  C : LinComb F
deriving DecidableEq, Repr

/-- `SynthesisError::AssignmentMissing`, plus models of the two Rust panic
sites of this repository (`assert_eq!` and `Result::unwrap` on `Err`). -/
inductive SynthErr : Type where
  | assignmentMissing
  | assertFailed
  | panicUnwrap
deriving DecidableEq, Repr

/-- The constraint-system state threaded through a circuit build.
`evalValues = true` is the proving assignment (witness-carrying build),
`evalValues = false` is the key-generation assembly (shape-only build). -/
structure CS (F : Type) where
  evalValues : Bool
  numInputs : Nat
  numAux : Nat
  constraints : List (Constraint F)
  inputValues : List F
  auxValues : List F
deriving DecidableEq, Repr

/-- A fresh constraint system: one public input (the constant one, value 1),
no aux variables, no constraints. -/
def CS.init (F : Type) [Field F] (mode : Bool) : CS F :=
  ⟨mode, 1, 0, [], [1], []⟩

variable {F : Type} [Field F] [Inhabited F]

/-- `ConstraintSystem::alloc`: register one witness variable.  The proving
assignment evaluates the value closure (`AssignmentMissing` when the value is
absent); the key-generation assembly ignores the closure entirely. -/
def CS.alloc (cs : CS F) (v : Option F) : Except SynthErr (Var × CS F) :=
  if cs.evalValues then
    match v with
    | some val => .ok (Var.aux cs.numAux,
        { cs with numAux := cs.numAux + 1, auxValues := cs.auxValues ++ [val] })
    | none => .error .assignmentMissing
  else
    .ok (Var.aux cs.numAux, { cs with numAux := cs.numAux + 1 })

/-- `ConstraintSystem::alloc_input`: like `alloc` but the variable is marked
as a public input. -/
def CS.allocInput (cs : CS F) (v : Option F) : Except SynthErr (Var × CS F) :=
  if cs.evalValues then
    match v with
    | some val => .ok (Var.input cs.numInputs,
        { cs with numInputs := cs.numInputs + 1, inputValues := cs.inputValues ++ [val] })
    | none => .error .assignmentMissing
  else
    .ok (Var.input cs.numInputs, { cs with numInputs := cs.numInputs + 1 })

/-- `ConstraintSystem::enforce`: register one quadratic constraint.
The diagnostic name strings of the source are elided. -/
def CS.enforce (cs : CS F) (c : Constraint F) : CS F :=
  { cs with constraints := cs.constraints ++ [c] }

/-- The variable/constraint topology (shape) of a constraint system:
everything except the concrete witness values and the build mode. -/
structure Topo (F : Type) where
  numInputs : Nat
  numAux : Nat
  constraints : List (Constraint F)
deriving DecidableEq

def CS.topo (cs : CS F) : Topo F := ⟨cs.numInputs, cs.numAux, cs.constraints⟩

/-- Value of a linear combination under an assignment of the variables. -/
def lcEval (φ : Var → F) (lc : LinComb F) : F :=
  (lc.map fun t => t.1 * φ t.2).sum

/-- Satisfaction of one constraint `A * B = C` under an assignment. -/
def constraintHolds (φ : Var → F) (c : Constraint F) : Prop :=
  lcEval φ c.A * lcEval φ c.B = lcEval φ c.C

/-! ## The MiMC cipher (src/bellman_mimc/src/main.rs) -/

/-- `MIMC_ROUNDS` (bellman_mimc/src/main.rs:13). -/
def MIMC_ROUNDS : Nat := 91

/-- One iteration of the reference `mimc` loop body (bellman_mimc/src/main.rs:34-52):
`tmp1 = x + c + k`, then the 2-4-6-7 power chain ending in `tmp1^7`. -/
def mimcRefRound (k x c : F) : F :=
  let tmp1 := x + c + k
  let tmp2 := tmp1 * tmp1
  let tmp3 := tmp2 * tmp2
  let tmp4 := tmp3 * tmp2
  let tmp5 := tmp4 * tmp1
  tmp5

/-- The reference evaluator `mimc` (bellman_mimc/src/main.rs:31-55).  The
`assert_eq!(constants.len(), MIMC_ROUNDS)` panic on a round-constant length
mismatch is modelled as `none`; the indexed loop over `0..MIMC_ROUNDS` is a
fold over the (length-checked) constants list. -/
def mimc (x k : F) (constants : List F) : Option F :=
  if constants.length = MIMC_ROUNDS then
    some (constants.foldl (fun x c => mimcRefRound k x c) x)
  else none

/-- The linear combination `lc + x + k + (c_i, CS::one())`. -/
def lcXKC (x k : Var) (c : F) : LinComb F := [(1, x), (1, k), (c, Var.input 0)]

/-- The linear combination `lc + v`. -/
def lc1 (v : Var) : LinComb F := [(1, v)]

/-- Rust `Option::unwrap`: a `None` panics (modelled `panicUnwrap`). -/
def optUnwrap {α : Type} : Option α → Except SynthErr α
  | some a => .ok a
  | none => .error .panicUnwrap

/-- Loop body for round `i` of `MiMCDemo::synthesize`
(bellman_mimc/src/main.rs:83-171): allocate `tmp = (x+k+c)^2`,
`tmp2 = tmp^2`, `tmp3 = tmp2*tmp`, `new_x = (x+k+c)*tmp3`, with one enforced
constraint each; `new_x` is a public input exactly on the final round.
The companion values are computed eagerly, outside the closures handed to
`alloc`; in particular the two `k_value.unwrap()` sites (main.rs:88 and 142)
run inside `x_value.map`, so they panic — `optUnwrap` — exactly when
`x_value` is present but `k_value` is absent, in every build mode.  The
remaining unwraps (`tmp_value.unwrap()` at main.rs:108/125 and
`rhs_value.unwrap()` at main.rs:147) execute only inside a `map` over an
option that is `some` exactly when the unwrapped option is; they are
rendered as `Option.get!`, which on those paths is never applied to
`none`. -/
def mimcRoundBody (c : F) (i : Nat) (x k : Var) (xval kval : Option F) (cs : CS F) :
    Except SynthErr (Var × Option F × CS F) := do
  let tmpVal : Option F ← match xval with
    | none => .ok none
    | some e => do
      let kv ← optUnwrap kval
      .ok (some (let e := e + kv + c; e * e))
  let (tmp, cs) ← cs.alloc tmpVal
  let cs := cs.enforce ⟨lcXKC x k c, lcXKC x k c, lc1 tmp⟩
  let tmp2Val := tmpVal.map fun e => e * tmpVal.get!
  let (tmp2, cs) ← cs.alloc tmp2Val
  let cs := cs.enforce ⟨lc1 tmp, lc1 tmp, lc1 tmp2⟩
  let tmp3Val := tmp2Val.map fun e => e * tmpVal.get!
  let (tmp3, cs) ← cs.alloc tmp3Val
  let cs := cs.enforce ⟨lc1 tmp2, lc1 tmp, lc1 tmp3⟩
  let rhsVal : Option F ← match xval with
    | none => .ok none
    | some e => do
      let kv ← optUnwrap kval
      .ok (some (e + kv + c))
  let newXVal := tmp3Val.map fun e => e * rhsVal.get!
  let r ← if i = MIMC_ROUNDS - 1 then cs.allocInput newXVal else cs.alloc newXVal
  let cs := r.2.enforce ⟨lcXKC x k c, lc1 tmp3, lc1 r.1⟩
  .ok (r.1, newXVal, cs)

/-- The round loop `for i in 0..MIMC_ROUNDS` of `MiMCDemo::synthesize`,
written as structural recursion over the remaining constants with the
explicit round index `i` (the loop state is the current variable `x` and its
companion value `x_value`). -/
def mimcRounds (k : Var) (kval : Option F) :
    List F → Nat → Var → Option F → CS F → Except SynthErr (CS F)
  | [], _, _, _, cs => .ok cs
  | c :: rest, i, x, xval, cs => do
    let (newX, newXVal, cs) ← mimcRoundBody c i x k xval kval cs
    mimcRounds k kval rest (i + 1) newX newXVal cs

/-- One repetition of the outer loop of `MiMCDemo::synthesize`
(bellman_mimc/src/main.rs:68-172): the state value is reset to the original
preimage, then `x` and the key are allocated afresh and the rounds run. -/
def mimcRep (x0 k0 : Option F) (constants : List F) (cs : CS F) :
    Except SynthErr (CS F) := do
  let (x, cs) ← cs.alloc x0
  let (k, cs) ← cs.alloc k0
  mimcRounds k k0 constants 0 x x0 cs

/-- The outer repetition loop `for _ in 0..self.repetitions`. -/
def mimcReps (x0 k0 : Option F) (constants : List F) :
    Nat → CS F → Except SynthErr (CS F)
  | 0, cs => .ok cs
  | n + 1, cs => do
    let cs ← mimcRep x0 k0 constants cs
    mimcReps x0 k0 constants n cs

/-- The value the circuit computes for `tmp` in one round (the squared term),
with current state value `xv`: `let e := xv + kv + c; e * e`. -/
def roundTmp (xv kv c : F) : F := let e := xv + kv + c; e * e

/-- The value the circuit computes for `new_x` in one round:
`tmp3 * rhs = ((tmp * tmp) * tmp) * (xv + kv + c)`. -/
def roundNewX (xv kv c : F) : F :=
  roundTmp xv kv c * roundTmp xv kv c * roundTmp xv kv c * (xv + kv + c)

/-- The sequence of aux-variable values the round loop assigns, starting at
round index `i` with state value `xv`: per round `tmp, tmp2, tmp3` and, except
on the final round (where `new_x` is a public input), also `new_x`. -/
def roundsAuxVals (kv : F) : List F → Nat → F → List F
  | [], _, _ => []
  | c :: rest, i, xv =>
    (if i = MIMC_ROUNDS - 1 then
      [roundTmp xv kv c, roundTmp xv kv c * roundTmp xv kv c,
       roundTmp xv kv c * roundTmp xv kv c * roundTmp xv kv c]
     else
      [roundTmp xv kv c, roundTmp xv kv c * roundTmp xv kv c,
       roundTmp xv kv c * roundTmp xv kv c * roundTmp xv kv c, roundNewX xv kv c])
      ++ roundsAuxVals kv rest (i + 1) (roundNewX xv kv c)

/-- The circuit's chained state value over a list of round constants. -/
def circChain (kv : F) (xv : F) (cts : List F) : F :=
  cts.foldl (fun a c => roundNewX a kv c) xv

/-- `n` copies of a list, concatenated. -/
def replicateJoin {α : Type} (n : Nat) (B : List α) : List α :=
  match n with
  | 0 => []
  | n + 1 => B ++ replicateJoin n B

/-- The four constraints one MiMC round registers, in order:
`(x+k+c)^2 = tmp`, `tmp*tmp = tmp2`, `tmp2*tmp = tmp3`,
`(x+k+c)*tmp3 = new_x`. -/
def mimcRoundBlock (c : F) (x k tmp tmp2 tmp3 newX : Var) : List (Constraint F) :=
  [⟨lcXKC x k c, lcXKC x k c, lc1 tmp⟩,
   ⟨lc1 tmp, lc1 tmp, lc1 tmp2⟩,
   ⟨lc1 tmp2, lc1 tmp, lc1 tmp3⟩,
   ⟨lcXKC x k c, lc1 tmp3, lc1 newX⟩]

/-- The `MiMCDemo` circuit descriptor (bellman_mimc/src/main.rs:57-62). -/
structure MiMCDemo (F : Type) where
  repetitions : Nat
  x : Option F
  k : Option F
  constants : List F

/-- `MiMCDemo::synthesize` (bellman_mimc/src/main.rs:64-174).  The leading
`assert_eq!(self.constants.len(), MIMC_ROUNDS)` panic is modelled as
`SynthErr.assertFailed`, before anything touches the constraint system. -/
def MiMCDemo.synthesize (d : MiMCDemo F) (cs : CS F) : Except SynthErr (CS F) :=
  if d.constants.length = MIMC_ROUNDS then
    mimcReps d.x d.k d.constants d.repetitions cs
  else .error .assertFailed

/-! ## The SHA-256 circuit (src/bellman_sha256/src/main.rs) -/

/-- A boolean circuit variable from the external gadget library: a variable
together with its optional concrete value. -/
structure AllocatedBit (F : Type) where
  var : Var
  value : Option Bool
deriving DecidableEq, Repr

/-- A bit as a field element. -/
def boolToF (b : Bool) : F := if b then 1 else 0

/-- The boolean constraint `(1 - a) * a = 0` registered for one allocated bit. -/
def boolCon (v : Var) : Constraint F :=
  ⟨[(1, Var.input 0), (-1, v)], lc1 v, []⟩

/-- Modelled from the spec: the external boolean-allocation collaborator
(`AllocatedBit::alloc` of the gadget library, as described in spec sections
4.2 and 7): allocate one witness variable carrying the bit as 0/1 (a missing
bit value is a missing assignment in a witness-carrying build) and constrain
it to be boolean via `(1 - a) * a = 0`. -/
def AllocatedBit.alloc (cs : CS F) (value : Option Bool) :
    Except SynthErr (AllocatedBit F × CS F) := do
  let (v, cs) ← cs.alloc (value.map fun b => boolToF b)
  let cs := cs.enforce (boolCon v)
  .ok (⟨v, value⟩, cs)

/-- Rust `Result::unwrap` for our error monad: an `Err` becomes a panic
(which aborts the build un-catchably) rather than a returned error. -/
def unwrapE {α : Type} : Except SynthErr α → Except SynthErr α
  | .ok a => .ok a
  | .error _ => .error .panicUnwrap

/-- Inner bit loop of `Sha256Demo::synthesize` for one input byte
(`for bit_i in (0..8).rev()`, bellman_sha256/src/main.rs:37-41): the bit value
is always supplied (`Some((input_byte >> bit_i) & 1u8 == 1u8)`) and the
allocation result is `.unwrap()`ped. -/
def allocByteBits (byte : Nat) :
    List Nat → CS F → Except SynthErr (List (AllocatedBit F) × CS F)
  | [], cs => .ok ([], cs)
  | bitI :: rest, cs => do
    let (b, cs) ← unwrapE (AllocatedBit.alloc cs (some ((byte >>> bitI) &&& 1 == 1)))
    let (bs, cs) ← allocByteBits byte rest cs
    .ok (b :: bs, cs)

/-- Outer byte loop of `Sha256Demo::synthesize` (bellman_sha256/src/main.rs:36-41),
pushing the allocated bits of each input byte, most-significant bit first,
onto the `foobar` vector in input order. -/
def allocBits : List Nat → CS F → Except SynthErr (List (AllocatedBit F) × CS F)
  | [], cs => .ok ([], cs)
  | byte :: rest, cs => do
    let (bs1, cs) ← allocByteBits byte (List.range 8).reverse cs
    let (bs2, cs) ← allocBits rest cs
    .ok (bs1 ++ bs2, cs)

/-- `E::Fr::CAPACITY` of the BN256 scalar field, the chunk size used by the
external multipacking collaborator. -/
def CAPACITY : Nat := 253

/-- `CAPACITY`-sized chunks (Rust `slice::chunks`). -/
def chunksOf {α : Type} : List α → List (List α)
  | [] => []
  | a :: rest => (a :: rest).take CAPACITY :: chunksOf ((a :: rest).drop CAPACITY)
termination_by l => l.length
decreasing_by simp [CAPACITY]; omega

/-- Little-endian packed value of one chunk of bits (coefficients 1, 2, 4, ...,
the doubling accumulator of the multipacking collaborator). -/
def packBits (bits : List Bool) : F :=
  bits.foldr (fun b acc => boolToF b + 2 * acc) 0

/-- `Num::get_value` of the gadget library: defined only when every bit has a
concrete value; the little-endian packed value of the chunk. -/
def numValue : List (AllocatedBit F) → Option F
  | [] => some 0
  | b :: rest =>
    match b.value, numValue rest with
    | some bv, some acc => some (boolToF bv + 2 * acc)
    | _, _ => none

/-- The packing linear combination `Σ 2^j * bit_j` of one chunk (the doubling
coefficient accumulator of the multipacking collaborator). -/
def packLCAux (coeff : F) : List (AllocatedBit F) → LinComb F
  | [] => []
  | b :: rest => (coeff, b.var) :: packLCAux (coeff + coeff) rest

/-- Modelled from the spec: the external `multipack::pack_into_inputs`
collaborator (spec section 6) — for each `CAPACITY`-sized chunk of the digest
bits, allocate one public-input variable carrying the packed chunk value and
enforce `input * 1 = Σ 2^j * bit_j`.  Its errors are propagated via `?`. -/
def packOneChunk (cs : CS F) (chunk : List (AllocatedBit F)) :
    Except SynthErr (CS F) := do
  let (input, cs) ← cs.allocInput (numValue chunk)
  .ok (cs.enforce ⟨lc1 input, lc1 (Var.input 0), packLCAux 1 chunk⟩)

/-- Modelled from the spec: `multipack::pack_into_inputs` iterated over the
chunks of the digest bits. -/
def packIntoInputs (bits : List (AllocatedBit F)) (cs : CS F) :
    Except SynthErr (CS F) :=
  (chunksOf bits).foldlM packOneChunk cs

/-- Modelled from the spec: the external `multipack::bytes_to_bits`
collaborator — bytes in order, most-significant bit first in each byte. -/
def bytesToBits : List Nat → List Bool
  | [] => []
  | v :: rest =>
    (List.range 8).reverse.map (fun i => (v >>> i) &&& 1 == 1) ++ bytesToBits rest

/-- Modelled from the spec: the external `multipack::compute_multipacking`
collaborator, used by the reference evaluator — by the spec it packs "with the
identical bit-grouping rule used by HashCircuitBuilder". -/
def computeMultipacking (bits : List Bool) : List F :=
  (chunksOf bits).map fun chunk => packBits chunk

/-- The `Sha256Demo` circuit descriptor (bellman_sha256/src/main.rs:22-24);
bytes are `Nat`s, only their low 8 bits are read. -/
structure Sha256Demo where
  input_data : List Nat

/-- The type of the external sha256 gadget collaborator: it consumes the
ordered boolean input sequence, may allocate in the constraint system, and
returns the ordered boolean digest. -/
abbrev ShaGadget (F : Type) :=
  List (AllocatedBit F) → CS F → Except SynthErr (List (AllocatedBit F) × CS F)

/-- `Sha256Demo::synthesize` (bellman_sha256/src/main.rs:27-47), with the
external sha256 gadget abstracted as a parameter.  The initial cleartext
`Sha256` computation of the source (lines 28-32, whose result is never used)
is elided; the `.unwrap()` on the gadget call (line 44) is `unwrapE`, while
the packing call (line 45) propagates errors via `?`. -/
def Sha256Demo.synthesize (gadget : ShaGadget F) (d : Sha256Demo) (cs : CS F) :
    Except SynthErr (CS F) := do
  let (foobar, cs) ← allocBits d.input_data cs
  let (hash, cs) ← unwrapE (gadget foobar cs)
  packIntoInputs hash cs

/-- The list of aux variables `Var.aux s, Var.aux (s+1), ..., Var.aux (s+n-1)`. -/
def auxRange : Nat → Nat → List Var
  | 0, _ => []
  | n + 1, s => Var.aux s :: auxRange n (s + 1)

/-! ## The benchmark harnesses (`main` / `eval_sha256`) -/

/-- Modelled from the spec: the external Groth16 proving backend interface
(spec section 6), specialised to what one benchmark sample uses.  `proofWrite`
and `proofRead` are `Proof::write` / `Proof::read` (serialization round-trip);
`proofRead` returns `none` on malformed bytes. -/
structure Groth16Backend (F : Type) (Params PVK Proof : Type) where
  generateParameters : Params
  prepareVerifyingKey : Params → PVK
  createProof : Params → Proof
  proofWrite : Proof → List Nat
  proofRead : List Nat → Option Proof
  verifyProof : PVK → Proof → List F → Bool

/-- One sample of the cipher benchmark loop (bellman_mimc/src/main.rs:195-249):
create parameters, prepare the verifying key, create a proof, serialize it,
deserialize it (`Proof::read(..).unwrap()`; a read failure panics, modelled as
`none`), and verify the deserialized proof.  Timing and printing are elided. -/
def mimcBenchSample {Params PVK Proof : Type}
    (b : Groth16Backend F Params PVK Proof) (inputs : List F) : Option Bool :=
  let params := b.generateParameters
  let pvk := b.prepareVerifyingKey params
  let proof := b.createProof params
  let proof_vec := b.proofWrite proof
  match b.proofRead proof_vec with
  | none => none
  | some proof2 => some (b.verifyProof pvk proof2 inputs)

/-- One sample of the hash benchmark (`eval_sha256`,
bellman_sha256/src/main.rs:50-95): create parameters, prepare the verifying
key, create a proof, and verify that same in-memory proof directly — there is
no serialization round-trip in this harness.  Timing and printing are elided. -/
def sha256BenchSample {Params PVK Proof : Type}
    (b : Groth16Backend F Params PVK Proof) (inputs : List F) : Option Bool :=
  let params := b.generateParameters
  let pvk := b.prepareVerifyingKey params
  let proof := b.createProof params
  some (b.verifyProof pvk proof inputs)

/-! ## Helper lemmas -/

@[simp] theorem ok_bind {α β : Type} (a : α) (f : α → Except SynthErr β) :
    (Except.ok a >>= f) = f a := rfl

@[simp] theorem error_bind {α β : Type} (e : SynthErr) (f : α → Except SynthErr β) :
    ((Except.error e : Except SynthErr α) >>= f) = .error e := rfl

@[simp] theorem optUnwrap_some {α : Type} (a : α) :
    optUnwrap (some a) = .ok a := rfl

@[simp] theorem optUnwrap_none {α : Type} :
    (optUnwrap none : Except SynthErr α) = .error .panicUnwrap := rfl

@[simp] theorem lcEval_lc1 (φ : Var → F) (v : Var) : lcEval φ (lc1 v) = φ v := by
  simp [lcEval, lc1]

theorem lcEval_lcXKC (φ : Var → F) (x k : Var) (c : F) (hφ : φ (Var.input 0) = 1) :
    lcEval φ (lcXKC x k c) = φ x + φ k + c := by
  simp [lcEval, lcXKC, hφ, add_assoc]

/-! ## Claims C4 and C10 -/

instance : Fact (Nat.Prime 13) := ⟨by norm_num⟩

/-- C4: a round-constant list whose length differs from `MIMC_ROUNDS` is
rejected up front: the reference evaluator `mimc` produces no value (its
`assert_eq!` panics before any round is computed), and `MiMCDemo::synthesize`
aborts with its leading `assert_eq!` panic (modelled `assertFailed`) before
allocating anything — the constraint system is not touched. -/
theorem mimc_length_mismatch_rejected (x k : F) (x0 k0 : Option F) (R : Nat)
    (constants : List F) (cs : CS F) (h : constants.length ≠ MIMC_ROUNDS) :
    mimc x k constants = none ∧
    MiMCDemo.synthesize ⟨R, x0, k0, constants⟩ cs = .error .assertFailed := by
  constructor <;> simp [mimc, MiMCDemo.synthesize, h]

theorem mimc_length_mismatch_rejected_witness :
    mimc (2 : ZMod 13) 3 [] = none ∧
    MiMCDemo.synthesize ⟨1, some 2, some 3, ([] : List (ZMod 13))⟩
      (CS.init (ZMod 13) true) = .error .assertFailed :=
  mimc_length_mismatch_rejected 2 3 (some 2) (some 3) 1 [] _ (by decide)

/-- C10: with `repetitions = 0` and round constants of the correct length,
the cipher build returns `Ok` and leaves the constraint system exactly as it
was: no variable allocated, no constraint registered, no public input marked —
whether or not witness values are present. -/
theorem mimc_zero_repetitions_noop (x0 k0 : Option F) (constants : List F)
    (cs : CS F) (h : constants.length = MIMC_ROUNDS) :
    MiMCDemo.synthesize ⟨0, x0, k0, constants⟩ cs = .ok cs := by
  simp [MiMCDemo.synthesize, h, mimcReps]

theorem mimc_zero_repetitions_noop_witness :
    MiMCDemo.synthesize ⟨0, some 2, some 3, List.replicate MIMC_ROUNDS (1 : ZMod 13)⟩
      (CS.init (ZMod 13) true) = .ok (CS.init (ZMod 13) true) :=
  mimc_zero_repetitions_noop _ _ _ _ (by simp)

/-! ## Claim C1: the four constraints of one cipher round -/

/-- C1: one round of the cipher circuit, given state variable `x`, key
variable `k` and round constant `c`, registers exactly four constraints
realizing the 2-4-6-7 power chain — `(x+k+c)*(x+k+c) = tmp`,
`tmp*tmp = tmp2`, `tmp2*tmp = tmp3`, `(x+k+c)*tmp3 = new_x` — and allocates
`new_x` as a public-input variable exactly when `i` is the final round
(`i = MIMC_ROUNDS - 1`), as a witness variable otherwise.  The hypotheses
exclude exactly the runs on which the source does not complete the round:
`hxk` rules out the eager `k_value.unwrap()` panic (state value present, key
value absent — reachable in any build mode), and `hv` rules out the
missing-assignment failure of a witness-carrying build lacking the state
value; every other combination — shape builds with no values or both values,
and witness-carrying builds with both values — is covered.  The final
conjunct reads the four registered constraint shapes back as those four
equations under any assignment that sends the constant-one variable to 1. -/
theorem mimc_round_four_constraints (c : F) (i : Nat) (x k : Var)
    (xval kval : Option F) (cs : CS F)
    (hxk : xval.isSome → kval.isSome)
    (hv : cs.evalValues = true → xval.isSome) :
    ∃ nxv cs',
      mimcRoundBody c i x k xval kval cs =
        .ok ((if i = MIMC_ROUNDS - 1 then Var.input cs.numInputs
              else Var.aux (cs.numAux + 3)), nxv, cs') ∧
      cs'.constraints = cs.constraints ++
        mimcRoundBlock c x k (Var.aux cs.numAux) (Var.aux (cs.numAux + 1))
          (Var.aux (cs.numAux + 2))
          (if i = MIMC_ROUNDS - 1 then Var.input cs.numInputs
           else Var.aux (cs.numAux + 3)) ∧
      cs'.numInputs = (if i = MIMC_ROUNDS - 1 then cs.numInputs + 1 else cs.numInputs) ∧
      cs'.numAux = (if i = MIMC_ROUNDS - 1 then cs.numAux + 3 else cs.numAux + 4) ∧
      (∀ φ : Var → F, φ (Var.input 0) = 1 → ∀ tmp tmp2 tmp3 newX : Var,
        (constraintHolds φ ⟨lcXKC x k c, lcXKC x k c, lc1 tmp⟩ ↔
          (φ x + φ k + c) * (φ x + φ k + c) = φ tmp) ∧
        (constraintHolds φ ⟨lc1 tmp, lc1 tmp, lc1 tmp2⟩ ↔ φ tmp * φ tmp = φ tmp2) ∧
        (constraintHolds φ ⟨lc1 tmp2, lc1 tmp, lc1 tmp3⟩ ↔ φ tmp2 * φ tmp = φ tmp3) ∧
        (constraintHolds φ ⟨lcXKC x k c, lc1 tmp3, lc1 newX⟩ ↔
          (φ x + φ k + c) * φ tmp3 = φ newX)) := by
  have hsem : ∀ φ : Var → F, φ (Var.input 0) = 1 → ∀ tmp tmp2 tmp3 newX : Var,
      (constraintHolds φ ⟨lcXKC x k c, lcXKC x k c, lc1 tmp⟩ ↔
        (φ x + φ k + c) * (φ x + φ k + c) = φ tmp) ∧
      (constraintHolds φ ⟨lc1 tmp, lc1 tmp, lc1 tmp2⟩ ↔ φ tmp * φ tmp = φ tmp2) ∧
      (constraintHolds φ ⟨lc1 tmp2, lc1 tmp, lc1 tmp3⟩ ↔ φ tmp2 * φ tmp = φ tmp3) ∧
      (constraintHolds φ ⟨lcXKC x k c, lc1 tmp3, lc1 newX⟩ ↔
        (φ x + φ k + c) * φ tmp3 = φ newX) := by
    intro φ hφ tmp tmp2 tmp3 newX
    refine ⟨?_, ?_, ?_, ?_⟩ <;>
      simp [constraintHolds, lcEval_lcXKC φ x k c hφ]
  rcases xval with _ | xv
  · have hm : cs.evalValues = false := by
      cases hm2 : cs.evalValues
      · rfl
      · exact absurd (hv hm2) (by simp)
    by_cases hi : i = MIMC_ROUNDS - 1
    · simp [mimcRoundBody, optUnwrap, CS.alloc, CS.allocInput, CS.enforce, hm, hi,
        mimcRoundBlock, Nat.add_assoc]
      exact ⟨_, _, ⟨rfl, rfl⟩, rfl, rfl, rfl, hsem⟩
    · simp [mimcRoundBody, optUnwrap, CS.alloc, CS.allocInput, CS.enforce, hm, hi,
        mimcRoundBlock, Nat.add_assoc]
      exact ⟨_, _, ⟨rfl, rfl⟩, rfl, rfl, rfl, hsem⟩
  · obtain ⟨kv, hkv⟩ := Option.isSome_iff_exists.mp (hxk (by simp))
    subst hkv
    by_cases hi : i = MIMC_ROUNDS - 1 <;> cases hm : cs.evalValues
    · simp [mimcRoundBody, optUnwrap, CS.alloc, CS.allocInput, CS.enforce, hm, hi,
        mimcRoundBlock, Nat.add_assoc]
      exact ⟨_, _, ⟨rfl, rfl⟩, rfl, rfl, rfl, hsem⟩
    · simp [mimcRoundBody, optUnwrap, CS.alloc, CS.allocInput, CS.enforce, hm, hi,
        mimcRoundBlock, Nat.add_assoc]
      exact ⟨_, _, ⟨rfl, rfl⟩, rfl, rfl, rfl, hsem⟩
    · simp [mimcRoundBody, optUnwrap, CS.alloc, CS.allocInput, CS.enforce, hm, hi,
        mimcRoundBlock, Nat.add_assoc]
      exact ⟨_, _, ⟨rfl, rfl⟩, rfl, rfl, rfl, hsem⟩
    · simp [mimcRoundBody, optUnwrap, CS.alloc, CS.allocInput, CS.enforce, hm, hi,
        mimcRoundBlock, Nat.add_assoc]
      exact ⟨_, _, ⟨rfl, rfl⟩, rfl, rfl, rfl, hsem⟩

theorem mimc_round_four_constraints_witness :
    ∃ nxv cs',
      mimcRoundBody (2 : ZMod 13) 0 (Var.aux 0) (Var.aux 1) (some 3) (some 5)
          (⟨true, 1, 2, [], [1], [3, 5]⟩ : CS (ZMod 13)) =
        .ok (Var.aux 5, nxv, cs') ∧
      cs'.constraints =
        mimcRoundBlock 2 (Var.aux 0) (Var.aux 1) (Var.aux 2) (Var.aux 3)
          (Var.aux 4) (Var.aux 5) ∧
      cs'.numInputs = 1 ∧
      cs'.numAux = 6 ∧
      (∀ φ : Var → ZMod 13, φ (Var.input 0) = 1 → ∀ tmp tmp2 tmp3 newX : Var,
        (constraintHolds φ ⟨lcXKC (Var.aux 0) (Var.aux 1) 2,
            lcXKC (Var.aux 0) (Var.aux 1) 2, lc1 tmp⟩ ↔
          (φ (Var.aux 0) + φ (Var.aux 1) + 2) * (φ (Var.aux 0) + φ (Var.aux 1) + 2) = φ tmp) ∧
        (constraintHolds φ ⟨lc1 tmp, lc1 tmp, lc1 tmp2⟩ ↔ φ tmp * φ tmp = φ tmp2) ∧
        (constraintHolds φ ⟨lc1 tmp2, lc1 tmp, lc1 tmp3⟩ ↔ φ tmp2 * φ tmp = φ tmp3) ∧
        (constraintHolds φ ⟨lcXKC (Var.aux 0) (Var.aux 1) 2, lc1 tmp3, lc1 newX⟩ ↔
          (φ (Var.aux 0) + φ (Var.aux 1) + 2) * φ tmp3 = φ newX)) :=
  mimc_round_four_constraints 2 0 (Var.aux 0) (Var.aux 1) (some 3) (some 5)
    (⟨true, 1, 2, [], [1], [3, 5]⟩ : CS (ZMod 13)) (fun _ => rfl) (fun _ => rfl)



theorem mimcRoundBody_eval (c : F) (i : Nat) (x k : Var) (xv kv : F) (cs : CS F)
    (hm : cs.evalValues = true) :
    mimcRoundBody c i x k (some xv) (some kv) cs =
      .ok ((if i = MIMC_ROUNDS - 1 then Var.input cs.numInputs
            else Var.aux (cs.numAux + 3)),
        some (roundNewX xv kv c),
        if i = MIMC_ROUNDS - 1 then
          ⟨true, cs.numInputs + 1, cs.numAux + 3,
            cs.constraints ++ mimcRoundBlock c x k (Var.aux cs.numAux)
              (Var.aux (cs.numAux + 1)) (Var.aux (cs.numAux + 2))
              (Var.input cs.numInputs),
            cs.inputValues ++ [roundNewX xv kv c],
            cs.auxValues ++ [roundTmp xv kv c, roundTmp xv kv c * roundTmp xv kv c,
              roundTmp xv kv c * roundTmp xv kv c * roundTmp xv kv c]⟩
        else
          ⟨true, cs.numInputs, cs.numAux + 4,
            cs.constraints ++ mimcRoundBlock c x k (Var.aux cs.numAux)
              (Var.aux (cs.numAux + 1)) (Var.aux (cs.numAux + 2))
              (Var.aux (cs.numAux + 3)),
            cs.inputValues,
            cs.auxValues ++ [roundTmp xv kv c, roundTmp xv kv c * roundTmp xv kv c,
              roundTmp xv kv c * roundTmp xv kv c * roundTmp xv kv c,
              roundNewX xv kv c]⟩) := by
  by_cases hi : i = MIMC_ROUNDS - 1 <;>
    simp [mimcRoundBody, CS.alloc, CS.allocInput, CS.enforce, hm, hi, mimcRoundBlock,
      roundTmp, roundNewX, Nat.add_assoc] <;>
    and_intros <;> ring

theorem mimcRounds_eval (cts : List F) :
    ∀ (i : Nat) (x k : Var) (xv kv : F) (cs : CS F),
      cs.evalValues = true → i + cts.length ≤ MIMC_ROUNDS →
      ∃ cs', mimcRounds k (some kv) cts i x (some xv) cs = .ok cs' ∧
        cs'.evalValues = true ∧
        cs'.numInputs = cs.numInputs +
          (if i + cts.length = MIMC_ROUNDS ∧ cts.length ≠ 0 then 1 else 0) ∧
        cs'.numAux = cs.numAux + (roundsAuxVals kv cts i xv).length ∧
        cs'.auxValues = cs.auxValues ++ roundsAuxVals kv cts i xv ∧
        cs'.inputValues = cs.inputValues ++
          (if i + cts.length = MIMC_ROUNDS ∧ cts.length ≠ 0 then [circChain kv xv cts] else []) ∧
        cs'.constraints.length = cs.constraints.length + 4 * cts.length := by
  induction cts with
  | nil =>
    intro i x k xv kv cs hm hlen
    exact ⟨cs, rfl, hm, by simp, by simp [roundsAuxVals], by simp [roundsAuxVals],
      by simp, by simp⟩
  | cons c rest ih =>
    intro i x k xv kv cs hm hlen
    by_cases hi : i = MIMC_ROUNDS - 1
    · have hrest : rest = [] := by
        cases rest with
        | nil => rfl
        | cons c2 rest2 =>
          exfalso; subst hi; simp [MIMC_ROUNDS] at hlen; omega
      subst hrest; subst hi
      simp only [mimcRounds, mimcRoundBody_eval _ _ _ _ _ _ _ hm, ok_bind, if_pos rfl]
      refine ⟨_, rfl, rfl, ?_, ?_, ?_, ?_, ?_⟩
      · simp [MIMC_ROUNDS]
      · simp [roundsAuxVals]
      · simp [roundsAuxVals]
      · simp [MIMC_ROUNDS, circChain]
      · simp [mimcRoundBlock]
    · rcases rest with _ | ⟨c2, rest2⟩
      · simp only [mimcRounds, mimcRoundBody_eval _ _ _ _ _ _ _ hm, ok_bind, if_neg hi]
        have hcond : ¬(i + [c].length = MIMC_ROUNDS ∧ [c].length ≠ 0) := by
          simp [MIMC_ROUNDS] at hi ⊢
          omega
        have h1 : ¬(i + 1 = MIMC_ROUNDS) := by
          simp [MIMC_ROUNDS] at hi ⊢; omega
        refine ⟨_, rfl, rfl, ?_, ?_, ?_, ?_, ?_⟩
        · simp [h1]
        · simp [roundsAuxVals, hi]
        · simp [roundsAuxVals, hi]
        · simp [h1]
        · simp [mimcRoundBlock]
      · simp only [mimcRounds, mimcRoundBody_eval _ _ _ _ _ _ _ hm, ok_bind, if_neg hi]
        have hlen2 : (i + 1) + (c2 :: rest2).length ≤ MIMC_ROUNDS := by
          simp at hlen ⊢; omega
        obtain ⟨cs', hrun, he, hni, hna, hav, hiv, hcl⟩ :=
          ih (i + 1) (Var.aux (cs.numAux + 3)) k (roundNewX xv kv c) kv
            ⟨true, cs.numInputs, cs.numAux + 4,
              cs.constraints ++ mimcRoundBlock c x k (Var.aux cs.numAux)
                (Var.aux (cs.numAux + 1)) (Var.aux (cs.numAux + 2))
                (Var.aux (cs.numAux + 3)),
              cs.inputValues,
              cs.auxValues ++ [roundTmp xv kv c, roundTmp xv kv c * roundTmp xv kv c,
                roundTmp xv kv c * roundTmp xv kv c * roundTmp xv kv c,
                roundNewX xv kv c]⟩ rfl hlen2
        have hcond : (i + (c :: c2 :: rest2).length = MIMC_ROUNDS ∧
            (c :: c2 :: rest2).length ≠ 0) ↔
            ((i + 1) + (c2 :: rest2).length = MIMC_ROUNDS ∧
              (c2 :: rest2).length ≠ 0) := by
          simp
          omega
        refine ⟨cs', hrun, he, ?_, ?_, ?_, ?_, ?_⟩
        · rw [hni]
          by_cases h2 : (i + 1) + (c2 :: rest2).length = MIMC_ROUNDS ∧
              (c2 :: rest2).length ≠ 0
          · rw [if_pos h2, if_pos (hcond.mpr h2)]
          · rw [if_neg h2, if_neg (fun hh => h2 (hcond.mp hh))]
        · rw [hna]
          simp [roundsAuxVals, hi]
          split_ifs <;> simp <;> omega
        · rw [hav]
          simp [roundsAuxVals, hi, List.append_assoc]
        · rw [hiv]
          have hcc : circChain kv xv (c :: c2 :: rest2) =
              circChain kv (roundNewX xv kv c) (c2 :: rest2) := by
            simp [circChain]
          by_cases h2 : (i + 1) + (c2 :: rest2).length = MIMC_ROUNDS ∧
              (c2 :: rest2).length ≠ 0
          · rw [if_pos h2, if_pos (hcond.mpr h2), hcc]
          · rw [if_neg h2, if_neg (fun hh => h2 (hcond.mp hh))]
        · rw [hcl]
          simp [mimcRoundBlock]
          ring


theorem roundsAuxVals_length (kv : F) (cts : List F) :
    ∀ (i : Nat) (xv : F), i + cts.length ≤ MIMC_ROUNDS →
      (roundsAuxVals kv cts i xv).length +
        (if i + cts.length = MIMC_ROUNDS ∧ cts.length ≠ 0 then 1 else 0) =
        4 * cts.length := by
  induction cts with
  | nil => intro i xv h; simp [roundsAuxVals]
  | cons c rest ih =>
    intro i xv h
    by_cases hi : i = MIMC_ROUNDS - 1
    · have hrest : rest = [] := by
        cases rest with
        | nil => rfl
        | cons c2 rest2 => exfalso; subst hi; simp [MIMC_ROUNDS] at h; omega
      subst hrest; subst hi
      simp [roundsAuxVals, MIMC_ROUNDS]
    · have h2 : (i + 1) + rest.length ≤ MIMC_ROUNDS := by simp at h; omega
      have hiff : (i + (c :: rest).length = MIMC_ROUNDS ∧ (c :: rest).length ≠ 0) ↔
          ((i + 1) + rest.length = MIMC_ROUNDS ∧ rest.length ≠ 0) := by
        have hi2 : ¬i = MIMC_ROUNDS - 1 := hi
        simp only [List.length_cons, MIMC_ROUNDS] at hi2 ⊢
        omega
      have hrec := ih (i + 1) (roundNewX xv kv c) h2
      by_cases hc : ((i + 1) + rest.length = MIMC_ROUNDS ∧ rest.length ≠ 0)
      · rw [if_pos hc] at hrec
        rw [if_pos (hiff.mpr hc)]
        simp [roundsAuxVals, hi]
        omega
      · rw [if_neg hc] at hrec
        rw [if_neg (fun hh => hc (hiff.mp hh))]
        simp [roundsAuxVals, hi]
        omega

theorem mimcRep_eval (constants : List F) (h91 : constants.length = MIMC_ROUNDS)
    (xv kv : F) (cs : CS F) (hm : cs.evalValues = true) :
    ∃ cs', mimcRep (some xv) (some kv) constants cs = .ok cs' ∧
      cs'.evalValues = true ∧
      cs'.numInputs = cs.numInputs + 1 ∧
      cs'.numAux = cs.numAux + 365 ∧
      cs'.auxValues = cs.auxValues ++ (xv :: kv :: roundsAuxVals kv constants 0 xv) ∧
      cs'.inputValues = cs.inputValues ++ [circChain kv xv constants] ∧
      cs'.constraints.length = cs.constraints.length + 364 := by
  have hlen : (0 : Nat) + constants.length ≤ MIMC_ROUNDS := by simp [h91]
  obtain ⟨cs', hrun, he, hni, hna, hav, hiv, hcl⟩ :=
    mimcRounds_eval constants 0 (Var.aux cs.numAux) (Var.aux (cs.numAux + 1)) xv kv
      ⟨true, cs.numInputs, cs.numAux + 2, cs.constraints, cs.inputValues,
        cs.auxValues ++ [xv] ++ [kv]⟩ rfl hlen
  have hcond : (0 : Nat) + constants.length = MIMC_ROUNDS ∧ constants.length ≠ 0 := by
    simp [h91, MIMC_ROUNDS]
  have hlenA := roundsAuxVals_length kv constants 0 xv hlen
  rw [if_pos hcond] at hlenA
  rw [h91] at hlenA
  simp [MIMC_ROUNDS] at hlenA
  refine ⟨cs', ?_, he, ?_, ?_, ?_, ?_, ?_⟩
  · have hstep : mimcRep (some xv) (some kv) constants cs =
        mimcRounds (Var.aux (cs.numAux + 1)) (some kv) constants 0 (Var.aux cs.numAux)
          (some xv)
          ⟨true, cs.numInputs, cs.numAux + 2, cs.constraints, cs.inputValues,
            cs.auxValues ++ [xv] ++ [kv]⟩ := by
      simp [mimcRep, CS.alloc, hm, Nat.add_assoc]
    rw [hstep, hrun]
  · rw [hni, if_pos hcond]
  · rw [hna]
    dsimp only
    omega
  · rw [hav]
    simp
  · rw [hiv, if_pos hcond]
  · rw [hcl, h91]
    dsimp only
    simp [MIMC_ROUNDS]

theorem mimcReps_eval (constants : List F) (h91 : constants.length = MIMC_ROUNDS)
    (xv kv : F) :
    ∀ (R : Nat) (cs : CS F), cs.evalValues = true →
      ∃ cs', mimcReps (some xv) (some kv) constants R cs = .ok cs' ∧
        cs'.evalValues = true ∧
        cs'.numInputs = cs.numInputs + R ∧
        cs'.numAux = cs.numAux + 365 * R ∧
        cs'.auxValues = cs.auxValues ++
          replicateJoin R (xv :: kv :: roundsAuxVals kv constants 0 xv) ∧
        cs'.inputValues = cs.inputValues ++
          List.replicate R (circChain kv xv constants) ∧
        cs'.constraints.length = cs.constraints.length + 364 * R := by
  intro R
  induction R with
  | zero =>
    intro cs hm
    exact ⟨cs, rfl, hm, by simp, by simp, by simp [replicateJoin], by simp, by simp⟩
  | succ n ih =>
    intro cs hm
    obtain ⟨cs1, h1run, h1e, h1ni, h1na, h1av, h1iv, h1cl⟩ :=
      mimcRep_eval constants h91 xv kv cs hm
    obtain ⟨cs', hrun, he, hni, hna, hav, hiv, hcl⟩ := ih cs1 h1e
    refine ⟨cs', ?_, he, ?_, ?_, ?_, ?_, ?_⟩
    · simp only [mimcReps, h1run, ok_bind, hrun]
    · rw [hni, h1ni]; omega
    · rw [hna, h1na]; ring
    · rw [hav, h1av, replicateJoin]; simp
    · rw [hiv, h1iv, List.replicate_succ]; simp
    · rw [hcl, h1cl]; ring

theorem roundNewX_eq_mimcRefRound (xv kv c : F) :
    roundNewX xv kv c = mimcRefRound kv xv c := by
  simp [roundNewX, roundTmp, mimcRefRound]; ring

theorem circChain_eq (kv : F) (cts : List F) :
    ∀ xv, circChain kv xv cts = cts.foldl (fun a c => mimcRefRound kv a c) xv := by
  induction cts with
  | nil => intro xv; simp [circChain]
  | cons c rest ih =>
    intro xv
    show circChain kv (roundNewX xv kv c) rest = _
    rw [ih, List.foldl_cons, roundNewX_eq_mimcRefRound]

theorem mimc_eq_circChain (xv kv : F) (cts : List F) (h : cts.length = MIMC_ROUNDS) :
    mimc xv kv cts = some (circChain kv xv cts) := by
  simp [mimc, h, circChain_eq]


theorem drop_length_append {α : Type} (l1 l2 : List α) (n : Nat) :
    (l1 ++ l2).drop (l1.length + n) = l2.drop n := by
  induction l1 with
  | nil => simp
  | cons a t ih => simp [Nat.succ_add, ih]

theorem replicateJoin_drop {α : Type} (B : List α) :
    ∀ (j n : Nat), j < n →
      (replicateJoin n B).drop (B.length * j) = replicateJoin (n - j) B := by
  intro j
  induction j with
  | zero => intro n h; simp
  | succ m ih =>
    intro n h
    cases n with
    | zero => omega
    | succ n2 =>
      have hm : B.length * (m + 1) = B.length + B.length * m := by ring
      rw [replicateJoin, hm, drop_length_append, ih n2 (by omega), Nat.succ_sub_succ]

/-! ## Claims C2, C9: witness-carrying builds against the reference -/

/-- C2: for every repetition count `R ≥ 1`, in a witness-carrying cipher build
every repetition re-derives its output from the same original preimage and
key (the state value is reset at the start of each repetition), and the value
assigned to each repetition's final public-input variable equals the
reference evaluator's cleartext result `mimc x k constants`; hence the `R`
public inputs (after the constant one) are all identical. -/
theorem mimc_public_inputs_match_reference (R : Nat) (hR : 1 ≤ R) (xv kv : F)
    (constants : List F) (h91 : constants.length = MIMC_ROUNDS) :
    ∃ cs m,
      MiMCDemo.synthesize ⟨R, some xv, some kv, constants⟩ (CS.init F true) = .ok cs ∧
      mimc xv kv constants = some m ∧
      cs.inputValues = 1 :: List.replicate R m := by
  obtain ⟨cs', hrun, he, hni, hna, hav, hiv, hcl⟩ :=
    mimcReps_eval constants h91 xv kv R (CS.init F true) rfl
  refine ⟨cs', circChain kv xv constants, ?_, mimc_eq_circChain xv kv constants h91, ?_⟩
  · simp only [MiMCDemo.synthesize, h91, if_pos]
    exact hrun
  · rw [hiv]
    simp [CS.init]

theorem mimc_public_inputs_match_reference_witness :
    ∃ cs m,
      MiMCDemo.synthesize
          ⟨2, some 3, some 5, List.replicate MIMC_ROUNDS (2 : ZMod 13)⟩
          (CS.init (ZMod 13) true) = .ok cs ∧
      mimc (3 : ZMod 13) 5 (List.replicate MIMC_ROUNDS 2) = some m ∧
      cs.inputValues = 1 :: List.replicate 2 m :=
  mimc_public_inputs_match_reference 2 (by omega) 3 5 _ (by simp)

/-- C9: one witness-carrying cipher build allocates exactly
`(2 + 4 * MIMC_ROUNDS) * R` variables (aux plus marked public inputs, not
counting the pre-existing constant one) and registers exactly
`4 * MIMC_ROUNDS * R` constraints; each repetition `j` allocates its own
fresh preimage and key variables — the aux-value block of repetition `j`
starts at index `365 * j` and begins with the (identical) values `xv, kv`,
so no variable is shared between two repetitions. -/
theorem mimc_variable_constraint_counts (R : Nat) (xv kv : F) (constants : List F)
    (h91 : constants.length = MIMC_ROUNDS) :
    ∃ cs,
      MiMCDemo.synthesize ⟨R, some xv, some kv, constants⟩ (CS.init F true) = .ok cs ∧
      cs.numAux + (cs.numInputs - 1) = (2 + 4 * MIMC_ROUNDS) * R ∧
      cs.constraints.length = 4 * MIMC_ROUNDS * R ∧
      (∀ j, j < R → ∃ tl, cs.auxValues.drop (365 * j) = xv :: kv :: tl) := by
  obtain ⟨cs', hrun, he, hni, hna, hav, hiv, hcl⟩ :=
    mimcReps_eval constants h91 xv kv R (CS.init F true) rfl
  have hB : (xv :: kv :: roundsAuxVals kv constants 0 xv).length = 365 := by
    have hlen : (0 : Nat) + constants.length ≤ MIMC_ROUNDS := by simp [h91]
    have hlenA := roundsAuxVals_length kv constants 0 xv hlen
    rw [if_pos (by simp [h91, MIMC_ROUNDS])] at hlenA
    rw [h91] at hlenA
    simp only [MIMC_ROUNDS] at hlenA
    simp only [List.length_cons]
    omega
  refine ⟨cs', ?_, ?_, ?_, ?_⟩
  · simp only [MiMCDemo.synthesize, h91, if_pos]
    exact hrun
  · rw [hna, hni]
    simp only [CS.init, MIMC_ROUNDS]
    omega
  · rw [hcl]
    simp [CS.init, MIMC_ROUNDS]
  · intro j hj
    rw [hav]
    simp only [CS.init, List.nil_append]
    have := replicateJoin_drop (xv :: kv :: roundsAuxVals kv constants 0 xv) j R hj
    rw [hB] at this
    rw [this]
    cases hRj : R - j with
    | zero => omega
    | succ t =>
      rw [replicateJoin]
      exact ⟨roundsAuxVals kv constants 0 xv ++
        replicateJoin t (xv :: kv :: roundsAuxVals kv constants 0 xv), by simp⟩

theorem mimc_variable_constraint_counts_witness :
    ∃ cs,
      MiMCDemo.synthesize
          ⟨1, some 3, some 5, List.replicate MIMC_ROUNDS (2 : ZMod 13)⟩
          (CS.init (ZMod 13) true) = .ok cs ∧
      cs.numAux + (cs.numInputs - 1) = (2 + 4 * MIMC_ROUNDS) * 1 ∧
      cs.constraints.length = 4 * MIMC_ROUNDS * 1 ∧
      (∀ j, j < 1 → ∃ tl, cs.auxValues.drop (365 * j) = 3 :: 5 :: tl) :=
  mimc_variable_constraint_counts 1 3 5 _ (by simp)


theorem mimcRoundBody_shape (c : F) (i : Nat) (x k : Var) (kv0 : Option F)
    (cs : CS F) (hm : cs.evalValues = false) :
    mimcRoundBody c i x k none kv0 cs =
      .ok ((if i = MIMC_ROUNDS - 1 then Var.input cs.numInputs
            else Var.aux (cs.numAux + 3)),
        (none : Option F),
        if i = MIMC_ROUNDS - 1 then
          (⟨false, cs.numInputs + 1, cs.numAux + 3,
            cs.constraints ++ mimcRoundBlock c x k (Var.aux cs.numAux)
              (Var.aux (cs.numAux + 1)) (Var.aux (cs.numAux + 2))
              (Var.input cs.numInputs),
            cs.inputValues, cs.auxValues⟩ : CS F)
        else
          ⟨false, cs.numInputs, cs.numAux + 4,
            cs.constraints ++ mimcRoundBlock c x k (Var.aux cs.numAux)
              (Var.aux (cs.numAux + 1)) (Var.aux (cs.numAux + 2))
              (Var.aux (cs.numAux + 3)),
            cs.inputValues, cs.auxValues⟩) := by
  by_cases hi : i = MIMC_ROUNDS - 1 <;>
    simp [mimcRoundBody, optUnwrap, CS.alloc, CS.allocInput, CS.enforce, hm, hi,
      mimcRoundBlock, Nat.add_assoc]

theorem mimcRounds_pair (cts : List F) :
    ∀ (i : Nat) (x k : Var) (kv0 : Option F) (xv kv : F) (cs1 cs2 : CS F),
      cs1.evalValues = false → cs2.evalValues = true →
      cs1.numInputs = cs2.numInputs → cs1.numAux = cs2.numAux →
      cs1.constraints = cs2.constraints →
      ∃ cs1' cs2',
        mimcRounds k kv0 cts i x none cs1 = .ok cs1' ∧
        mimcRounds k (some kv) cts i x (some xv) cs2 = .ok cs2' ∧
        cs1'.evalValues = false ∧ cs2'.evalValues = true ∧
        cs1'.numInputs = cs2'.numInputs ∧ cs1'.numAux = cs2'.numAux ∧
        cs1'.constraints = cs2'.constraints := by
  induction cts with
  | nil =>
    intro i x k kv0 xv kv cs1 cs2 hm1 hm2 hI hA hC
    exact ⟨cs1, cs2, rfl, rfl, hm1, hm2, hI, hA, hC⟩
  | cons c rest ih =>
    intro i x k kv0 xv kv cs1 cs2 hm1 hm2 hI hA hC
    have h1run := mimcRoundBody_shape c i x k kv0 cs1 hm1
    have h2run := mimcRoundBody_eval c i x k xv kv cs2 hm2
    rw [hI, hA, hC] at h1run
    by_cases hi : i = MIMC_ROUNDS - 1
    · rw [if_pos hi] at h1run
      rw [if_pos hi] at h1run
      rw [if_pos hi] at h2run
      rw [if_pos hi] at h2run
      obtain ⟨cs1', cs2', hr1, hr2, he1, he2, hI', hA', hC'⟩ :=
        ih (i + 1) (Var.input cs2.numInputs) k kv0 (roundNewX xv kv c) kv
          ⟨false, cs2.numInputs + 1, cs2.numAux + 3,
            cs2.constraints ++ mimcRoundBlock c x k (Var.aux cs2.numAux)
              (Var.aux (cs2.numAux + 1)) (Var.aux (cs2.numAux + 2))
              (Var.input cs2.numInputs),
            cs1.inputValues, cs1.auxValues⟩
          ⟨true, cs2.numInputs + 1, cs2.numAux + 3,
            cs2.constraints ++ mimcRoundBlock c x k (Var.aux cs2.numAux)
              (Var.aux (cs2.numAux + 1)) (Var.aux (cs2.numAux + 2))
              (Var.input cs2.numInputs),
            cs2.inputValues ++ [roundNewX xv kv c],
            cs2.auxValues ++ [roundTmp xv kv c, roundTmp xv kv c * roundTmp xv kv c,
              roundTmp xv kv c * roundTmp xv kv c * roundTmp xv kv c]⟩
          rfl rfl rfl rfl rfl
      refine ⟨cs1', cs2', ?_, ?_, he1, he2, hI', hA', hC'⟩
      · simp only [mimcRounds, h1run, ok_bind]
        exact hr1
      · simp only [mimcRounds, h2run, ok_bind]
        exact hr2
    · rw [if_neg hi] at h1run
      rw [if_neg hi] at h1run
      rw [if_neg hi] at h2run
      rw [if_neg hi] at h2run
      obtain ⟨cs1', cs2', hr1, hr2, he1, he2, hI', hA', hC'⟩ :=
        ih (i + 1) (Var.aux (cs2.numAux + 3)) k kv0 (roundNewX xv kv c) kv
          ⟨false, cs2.numInputs, cs2.numAux + 4,
            cs2.constraints ++ mimcRoundBlock c x k (Var.aux cs2.numAux)
              (Var.aux (cs2.numAux + 1)) (Var.aux (cs2.numAux + 2))
              (Var.aux (cs2.numAux + 3)),
            cs1.inputValues, cs1.auxValues⟩
          ⟨true, cs2.numInputs, cs2.numAux + 4,
            cs2.constraints ++ mimcRoundBlock c x k (Var.aux cs2.numAux)
              (Var.aux (cs2.numAux + 1)) (Var.aux (cs2.numAux + 2))
              (Var.aux (cs2.numAux + 3)),
            cs2.inputValues,
            cs2.auxValues ++ [roundTmp xv kv c, roundTmp xv kv c * roundTmp xv kv c,
              roundTmp xv kv c * roundTmp xv kv c * roundTmp xv kv c,
              roundNewX xv kv c]⟩
          rfl rfl rfl rfl rfl
      refine ⟨cs1', cs2', ?_, ?_, he1, he2, hI', hA', hC'⟩
      · simp only [mimcRounds, h1run, ok_bind]
        exact hr1
      · simp only [mimcRounds, h2run, ok_bind]
        exact hr2

theorem mimcRep_pair (constants : List F) (xv kv : F)
    (cs1 cs2 : CS F) (hm1 : cs1.evalValues = false) (hm2 : cs2.evalValues = true)
    (hI : cs1.numInputs = cs2.numInputs) (hA : cs1.numAux = cs2.numAux)
    (hC : cs1.constraints = cs2.constraints) :
    ∃ cs1' cs2',
      mimcRep none none constants cs1 = .ok cs1' ∧
      mimcRep (some xv) (some kv) constants cs2 = .ok cs2' ∧
      cs1'.evalValues = false ∧ cs2'.evalValues = true ∧
      cs1'.numInputs = cs2'.numInputs ∧ cs1'.numAux = cs2'.numAux ∧
      cs1'.constraints = cs2'.constraints := by
  have h1 : mimcRep none none constants cs1 =
      mimcRounds (Var.aux (cs2.numAux + 1)) none constants 0 (Var.aux cs2.numAux) none
        ⟨false, cs2.numInputs, cs2.numAux + 2, cs2.constraints,
          cs1.inputValues, cs1.auxValues⟩ := by
    simp [mimcRep, CS.alloc, hm1, hI, hA, hC, Nat.add_assoc]
  have h2 : mimcRep (some xv) (some kv) constants cs2 =
      mimcRounds (Var.aux (cs2.numAux + 1)) (some kv) constants 0 (Var.aux cs2.numAux)
        (some xv)
        ⟨true, cs2.numInputs, cs2.numAux + 2, cs2.constraints,
          cs2.inputValues, cs2.auxValues ++ [xv] ++ [kv]⟩ := by
    simp [mimcRep, CS.alloc, hm2, Nat.add_assoc]
  obtain ⟨cs1', cs2', hr1, hr2, he1, he2, hI', hA', hC'⟩ :=
    mimcRounds_pair constants 0 (Var.aux cs2.numAux) (Var.aux (cs2.numAux + 1))
      none xv kv
      ⟨false, cs2.numInputs, cs2.numAux + 2, cs2.constraints,
        cs1.inputValues, cs1.auxValues⟩
      ⟨true, cs2.numInputs, cs2.numAux + 2, cs2.constraints,
        cs2.inputValues, cs2.auxValues ++ [xv] ++ [kv]⟩
      rfl rfl rfl rfl rfl
  exact ⟨cs1', cs2', by rw [h1]; exact hr1, by rw [h2]; exact hr2,
    he1, he2, hI', hA', hC'⟩

theorem mimcReps_pair (constants : List F) (xv kv : F) :
    ∀ (R : Nat) (cs1 cs2 : CS F),
      cs1.evalValues = false → cs2.evalValues = true →
      cs1.numInputs = cs2.numInputs → cs1.numAux = cs2.numAux →
      cs1.constraints = cs2.constraints →
      ∃ cs1' cs2',
        mimcReps none none constants R cs1 = .ok cs1' ∧
        mimcReps (some xv) (some kv) constants R cs2 = .ok cs2' ∧
        cs1'.evalValues = false ∧ cs2'.evalValues = true ∧
        cs1'.numInputs = cs2'.numInputs ∧ cs1'.numAux = cs2'.numAux ∧
        cs1'.constraints = cs2'.constraints := by
  intro R
  induction R with
  | zero =>
    intro cs1 cs2 hm1 hm2 hI hA hC
    exact ⟨cs1, cs2, rfl, rfl, hm1, hm2, hI, hA, hC⟩
  | succ n ih =>
    intro cs1 cs2 hm1 hm2 hI hA hC
    obtain ⟨cs1m, cs2m, hr1, hr2, he1, he2, hI1, hA1, hC1⟩ :=
      mimcRep_pair constants xv kv cs1 cs2 hm1 hm2 hI hA hC
    obtain ⟨cs1', cs2', hs1, hs2, he1', he2', hI', hA', hC'⟩ :=
      ih cs1m cs2m he1 he2 hI1 hA1 hC1
    exact ⟨cs1', cs2',
      by simp only [mimcReps, hr1, ok_bind]; exact hs1,
      by simp only [mimcReps, hr2, ok_bind]; exact hs2,
      he1', he2', hI', hA', hC'⟩

theorem mimcRoundBody_shape_cases (c : F) (i : Nat) (x k : Var)
    (xval kval : Option F) (cs : CS F) (hm : cs.evalValues = false) :
    (∃ newX nxv cs', mimcRoundBody c i x k xval kval cs = .ok (newX, nxv, cs') ∧
      cs'.evalValues = false) ∨
    mimcRoundBody c i x k xval kval cs = .error .panicUnwrap := by
  rcases xval with _ | xv
  · left
    refine ⟨_, _, _, mimcRoundBody_shape c i x k kval cs hm, ?_⟩
    by_cases hi : i = MIMC_ROUNDS - 1 <;> simp [hi]
  · rcases kval with _ | kv
    · right
      simp [mimcRoundBody, optUnwrap]
    · left
      by_cases hi : i = MIMC_ROUNDS - 1 <;>
        simp [mimcRoundBody, optUnwrap, CS.alloc, CS.allocInput, CS.enforce, hm, hi,
          Nat.add_assoc] <;>
        exact ⟨_, _, _, ⟨rfl, rfl, rfl⟩, rfl⟩

theorem mimcRounds_no_missing (cts : List F) :
    ∀ (i : Nat) (x k : Var) (xval kval : Option F) (cs : CS F),
      cs.evalValues = false →
      (∃ cs', mimcRounds k kval cts i x xval cs = .ok cs' ∧
        cs'.evalValues = false) ∨
      mimcRounds k kval cts i x xval cs = .error .panicUnwrap := by
  induction cts with
  | nil =>
    intro i x k xval kval cs hm
    exact Or.inl ⟨cs, rfl, hm⟩
  | cons c rest ih =>
    intro i x k xval kval cs hm
    rcases mimcRoundBody_shape_cases c i x k xval kval cs hm with
      ⟨newX, nxv, cs', hrun, he⟩ | herr
    · rcases ih (i + 1) newX k nxv kval cs' he with ⟨cs2, h2, he2⟩ | h2
      · exact Or.inl ⟨cs2, by simp only [mimcRounds, hrun, ok_bind]; exact h2, he2⟩
      · exact Or.inr (by simp only [mimcRounds, hrun, ok_bind]; exact h2)
    · exact Or.inr (by simp only [mimcRounds, herr, error_bind])

theorem mimcRep_no_missing (constants : List F) (x0 k0 : Option F) (cs : CS F)
    (hm : cs.evalValues = false) :
    (∃ cs', mimcRep x0 k0 constants cs = .ok cs' ∧ cs'.evalValues = false) ∨
    mimcRep x0 k0 constants cs = .error .panicUnwrap := by
  have hstep : mimcRep x0 k0 constants cs =
      mimcRounds (Var.aux (cs.numAux + 1)) k0 constants 0 (Var.aux cs.numAux) x0
        ⟨false, cs.numInputs, cs.numAux + 2, cs.constraints,
          cs.inputValues, cs.auxValues⟩ := by
    simp [mimcRep, CS.alloc, hm, Nat.add_assoc]
  rw [hstep]
  exact mimcRounds_no_missing constants 0 (Var.aux cs.numAux)
    (Var.aux (cs.numAux + 1)) x0 k0 _ rfl

theorem mimcReps_no_missing (constants : List F) (x0 k0 : Option F) :
    ∀ (R : Nat) (cs : CS F), cs.evalValues = false →
      (∃ cs', mimcReps x0 k0 constants R cs = .ok cs' ∧ cs'.evalValues = false) ∨
      mimcReps x0 k0 constants R cs = .error .panicUnwrap := by
  intro R
  induction R with
  | zero =>
    intro cs hm
    exact Or.inl ⟨cs, rfl, hm⟩
  | succ n ih =>
    intro cs hm
    rcases mimcRep_no_missing constants x0 k0 cs hm with ⟨cs1, h1, he1⟩ | h1
    · rcases ih cs1 he1 with ⟨cs', h2, he2⟩ | h2
      · exact Or.inl ⟨cs', by simp only [mimcReps, h1, ok_bind]; exact h2, he2⟩
      · exact Or.inr (by simp only [mimcReps, h1, ok_bind]; exact h2)
    · exact Or.inr (by simp only [mimcReps, h1, error_bind])

/-! ## Claim C3: shape stability -/

/-- C3: for every repetition count and round constants of the correct
length, a cipher circuit built without concrete witness values (preimage and
key absent, key-generation assembly) succeeds, and its variable/constraint
topology is identical to that of a witness-carrying build with concrete
values for the same `R` and constants; moreover a shape-mode build never
fails with a missing-assignment error for any witness payload — its value
closures are not evaluated, so `AssignmentMissing` is reachable only in
witness-carrying builds.  (A shape build with `x` present but `k` absent
panics at the eager `k_value.unwrap()` — a panic, not a missing-assignment
failure — which is why the last conjunct excludes only `AssignmentMissing`
rather than asserting unconditional success.) -/
theorem mimc_shape_build_topology_stable (R : Nat) (constants : List F)
    (h91 : constants.length = MIMC_ROUNDS) (xv kv : F) :
    ∃ csS csW,
      MiMCDemo.synthesize ⟨R, none, none, constants⟩ (CS.init F false) = .ok csS ∧
      MiMCDemo.synthesize ⟨R, some xv, some kv, constants⟩ (CS.init F true) = .ok csW ∧
      csS.topo = csW.topo ∧
      (∀ x0 k0 : Option F,
        MiMCDemo.synthesize ⟨R, x0, k0, constants⟩ (CS.init F false) ≠
          .error .assignmentMissing) := by
  obtain ⟨csS, csW, hr1, hr2, he1, he2, hI, hA, hC⟩ :=
    mimcReps_pair constants xv kv R (CS.init F false) (CS.init F true)
      rfl rfl rfl rfl rfl
  refine ⟨csS, csW, ?_, ?_, ?_, ?_⟩
  · simp only [MiMCDemo.synthesize, h91, if_pos]
    exact hr1
  · simp only [MiMCDemo.synthesize, h91, if_pos]
    exact hr2
  · simp [CS.topo, hI, hA, hC]
  · intro x0 k0 h
    simp only [MiMCDemo.synthesize, h91, if_pos] at h
    rcases mimcReps_no_missing constants x0 k0 R (CS.init F false) rfl with
      ⟨cs', hok, _⟩ | herr
    · rw [hok] at h
      exact Except.noConfusion h
    · rw [herr] at h
      injection h with h2
      cases h2

theorem mimc_shape_build_topology_stable_witness :
    ∃ csS csW,
      MiMCDemo.synthesize
          ⟨1, none, none, List.replicate MIMC_ROUNDS (2 : ZMod 13)⟩
          (CS.init (ZMod 13) false) = .ok csS ∧
      MiMCDemo.synthesize
          ⟨1, some 3, some 5, List.replicate MIMC_ROUNDS (2 : ZMod 13)⟩
          (CS.init (ZMod 13) true) = .ok csW ∧
      csS.topo = csW.topo ∧
      (∀ x0 k0 : Option (ZMod 13),
        MiMCDemo.synthesize ⟨1, x0, k0, List.replicate MIMC_ROUNDS (2 : ZMod 13)⟩
          (CS.init (ZMod 13) false) ≠ .error .assignmentMissing) :=
  mimc_shape_build_topology_stable 1 _ (by simp) 3 5





@[simp] theorem get!_some {α : Type} [Inhabited α] (a : α) : (some a).get! = a := rfl

theorem auxRange_append (m n s : Nat) :
    auxRange (m + n) s = auxRange m s ++ auxRange n (s + m) := by
  induction m generalizing s with
  | zero => simp [auxRange]
  | succ m2 ih =>
    have h : m2 + 1 + n = (m2 + n) + 1 := by omega
    rw [h, auxRange, auxRange, ih (s + 1)]
    simp [Nat.add_assoc, Nat.add_comm 1 m2]

theorem allocByteBits_cons_eval (byte bitI : Nat) (rest : List Nat) (cs : CS F)
    (hm : cs.evalValues = true) :
    allocByteBits byte (bitI :: rest) cs =
      (allocByteBits byte rest
        (⟨true, cs.numInputs, cs.numAux + 1,
          cs.constraints ++ [boolCon (Var.aux cs.numAux)],
          cs.inputValues,
          cs.auxValues ++ [boolToF ((byte >>> bitI) &&& 1 == 1)]⟩ : CS F)).map
        (fun r =>
          ((⟨Var.aux cs.numAux, some ((byte >>> bitI) &&& 1 == 1)⟩ : AllocatedBit F)
            :: r.1, r.2)) := by
  have h1 : unwrapE (AllocatedBit.alloc cs (some ((byte >>> bitI) &&& 1 == 1))) =
      .ok ((⟨Var.aux cs.numAux, some ((byte >>> bitI) &&& 1 == 1)⟩ : AllocatedBit F),
        (⟨true, cs.numInputs, cs.numAux + 1,
          cs.constraints ++ [boolCon (Var.aux cs.numAux)],
          cs.inputValues,
          cs.auxValues ++ [boolToF ((byte >>> bitI) &&& 1 == 1)]⟩ : CS F)) := by
    simp [unwrapE, AllocatedBit.alloc, CS.alloc, hm, CS.enforce]
  show (unwrapE (AllocatedBit.alloc cs (some ((byte >>> bitI) &&& 1 == 1))) >>= _) = _
  rw [h1, ok_bind]
  dsimp only
  cases hres : allocByteBits byte rest
      (⟨true, cs.numInputs, cs.numAux + 1,
        cs.constraints ++ [boolCon (Var.aux cs.numAux)],
        cs.inputValues,
        cs.auxValues ++ [boolToF ((byte >>> bitI) &&& 1 == 1)]⟩ : CS F) with
  | ok r => obtain ⟨bs2, cs2⟩ := r; rfl
  | error e => rfl

theorem allocByteBits_eval (byte : Nat) (bl : List Nat) :
    ∀ cs : CS F, cs.evalValues = true →
      ∃ bs cs', allocByteBits byte bl cs = .ok (bs, cs') ∧
        bs.map (fun b => b.value) =
          bl.map (fun i => some ((byte >>> i) &&& 1 == 1)) ∧
        bs.map (fun b => b.var) = auxRange bl.length cs.numAux ∧
        cs'.evalValues = true ∧
        cs'.numInputs = cs.numInputs ∧
        cs'.numAux = cs.numAux + bl.length ∧
        cs'.inputValues = cs.inputValues ∧
        cs'.auxValues = cs.auxValues ++
          bl.map (fun i => boolToF ((byte >>> i) &&& 1 == 1)) ∧
        cs'.constraints = cs.constraints ++
          (auxRange bl.length cs.numAux).map (fun v => boolCon v) := by
  induction bl with
  | nil =>
    intro cs hm
    exact ⟨[], cs, rfl, rfl, rfl, hm, rfl, by simp, rfl, by simp, by simp [auxRange]⟩
  | cons bitI rest ih =>
    intro cs hm
    obtain ⟨bs, cs', hrun, hval, hvar, he, hni, hna, hiv, hav, hcon⟩ :=
      ih ⟨true, cs.numInputs, cs.numAux + 1,
        cs.constraints ++ [boolCon (Var.aux cs.numAux)],
        cs.inputValues,
        cs.auxValues ++ [boolToF ((byte >>> bitI) &&& 1 == 1)]⟩ rfl
    refine ⟨⟨Var.aux cs.numAux, some ((byte >>> bitI) &&& 1 == 1)⟩ :: bs, cs', ?_,
      ?_, ?_, he, hni, ?_, hiv, ?_, ?_⟩
    · rw [allocByteBits_cons_eval byte bitI rest cs hm, hrun]
      rfl
    · simp [hval]
    · simp [hvar, auxRange]
    · rw [hna]; simp; omega
    · rw [hav]; simp
    · rw [hcon]
      simp [auxRange, List.append_assoc]

theorem allocBits_eval (data : List Nat) :
    ∀ cs : CS F, cs.evalValues = true →
      ∃ bs cs', allocBits data cs = .ok (bs, cs') ∧
        bs.map (fun b => b.value) = (bytesToBits data).map some ∧
        bs.map (fun b => b.var) = auxRange (8 * data.length) cs.numAux ∧
        cs'.evalValues = true ∧
        cs'.numInputs = cs.numInputs ∧
        cs'.numAux = cs.numAux + 8 * data.length ∧
        cs'.inputValues = cs.inputValues ∧
        cs'.auxValues = cs.auxValues ++ (bytesToBits data).map (fun b => boolToF b) ∧
        cs'.constraints = cs.constraints ++
          (auxRange (8 * data.length) cs.numAux).map (fun v => boolCon v) := by
  induction data with
  | nil =>
    intro cs hm
    exact ⟨[], cs, rfl, rfl, rfl, hm, rfl, by simp, rfl, by simp [bytesToBits],
      by simp [auxRange]⟩
  | cons byte rest ih =>
    intro cs hm
    obtain ⟨bs1, cs1, h1run, h1val, h1var, h1e, h1ni, h1na, h1iv, h1av, h1con⟩ :=
      allocByteBits_eval byte (List.range 8).reverse cs hm
    obtain ⟨bs2, cs2, h2run, h2val, h2var, h2e, h2ni, h2na, h2iv, h2av, h2con⟩ :=
      ih cs1 h1e
    have hlen8 : ((List.range 8).reverse : List Nat).length = 8 := by simp
    rw [hlen8] at h1var h1na h1con
    have hsplit : 8 * (rest.length + 1) = 8 + 8 * rest.length := by omega
    refine ⟨bs1 ++ bs2, cs2, ?_, ?_, ?_, h2e, ?_, ?_, ?_, ?_, ?_⟩
    · simp only [allocBits, h1run, ok_bind, h2run]
    · simp only [List.map_append, h1val, h2val, bytesToBits]
      simp
    · rw [List.map_append, h1var, h2var, h1na]
      simp only [List.length_cons, hsplit, auxRange_append]
    · rw [h2ni, h1ni]
    · rw [h2na, h1na]
      simp only [List.length_cons]
      omega
    · rw [h2iv, h1iv]
    · rw [h2av, h1av]
      simp [bytesToBits]
    · rw [h2con, h1con, h1na]
      simp only [List.length_cons, hsplit, auxRange_append, List.map_append,
        List.append_assoc]


theorem boolCon_holds_iff (φ : Var → F) (v : Var) (hφ : φ (Var.input 0) = 1) :
    constraintHolds φ (boolCon v) ↔ φ v = 0 ∨ φ v = 1 := by
  have ha : lcEval φ ([(1, Var.input 0), (-1, v)] : LinComb F) = 1 - φ v := by
    simp [lcEval, hφ]
    ring
  have hc : lcEval φ ([] : LinComb F) = 0 := by simp [lcEval]
  have hh : constraintHolds φ (boolCon v) ↔ (1 - φ v) * φ v = 0 := by
    simp only [constraintHolds, boolCon, ha, hc, lcEval_lc1]
  rw [hh, mul_eq_zero, sub_eq_zero]
  constructor
  · rintro (h | h)
    · exact Or.inr h.symm
    · exact Or.inl h
  · rintro (h | h)
    · exact Or.inr h
    · exact Or.inl h.symm

/-! ## Claim C6: one boolean witness variable per input bit -/

/-- C6: the bit-allocation phase of `Sha256Demo::synthesize` allocates
exactly one boolean witness variable per bit of the input — `8 * L` fresh
consecutive aux variables, none public — in order: bytes in input order and,
within each byte, most-significant bit first (the order of
`multipack::bytes_to_bits`); each variable is assigned the concrete bit value
of its input byte and carries one constraint `(1 - a) * a = 0`, which holds
under an assignment exactly when the variable's value is 0 or 1. -/
theorem sha256_bit_allocation_order (data : List Nat) (cs : CS F)
    (hm : cs.evalValues = true) :
    ∃ bs cs', allocBits data cs = .ok (bs, cs') ∧
      bs.map (fun b => b.value) = (bytesToBits data).map some ∧
      bs.map (fun b => b.var) = auxRange (8 * data.length) cs.numAux ∧
      cs'.numAux = cs.numAux + 8 * data.length ∧
      cs'.numInputs = cs.numInputs ∧
      cs'.auxValues = cs.auxValues ++ (bytesToBits data).map (fun b => boolToF b) ∧
      cs'.constraints = cs.constraints ++
        (auxRange (8 * data.length) cs.numAux).map (fun v => boolCon v) ∧
      (∀ (φ : Var → F) (v : Var), φ (Var.input 0) = 1 →
        (constraintHolds φ (boolCon v) ↔ φ v = 0 ∨ φ v = 1)) := by
  obtain ⟨bs, cs', hrun, hval, hvar, he, hni, hna, hiv, hav, hcon⟩ :=
    allocBits_eval data cs hm
  exact ⟨bs, cs', hrun, hval, hvar, hna, hni, hav, hcon,
    fun φ v hφ => boolCon_holds_iff φ v hφ⟩

theorem sha256_bit_allocation_order_witness :
    ∃ bs cs', allocBits [165] (CS.init (ZMod 13) true) = .ok (bs, cs') ∧
      bs.map (fun b => b.value) = (bytesToBits [165]).map some ∧
      bs.map (fun b => b.var) =
        auxRange (8 * [165].length) (CS.init (ZMod 13) true).numAux ∧
      cs'.numAux = (CS.init (ZMod 13) true).numAux + 8 * [165].length ∧
      cs'.numInputs = (CS.init (ZMod 13) true).numInputs ∧
      cs'.auxValues = (CS.init (ZMod 13) true).auxValues ++
        (bytesToBits [165]).map (fun b => boolToF b) ∧
      cs'.constraints = (CS.init (ZMod 13) true).constraints ++
        (auxRange (8 * [165].length) (CS.init (ZMod 13) true).numAux).map
          (fun v => boolCon v) ∧
      (∀ (φ : Var → ZMod 13) (v : Var), φ (Var.input 0) = 1 →
        (constraintHolds φ (boolCon v) ↔ φ v = 0 ∨ φ v = 1)) :=
  sha256_bit_allocation_order [165] (CS.init (ZMod 13) true) rfl


theorem map_value_get! (bits : List (AllocatedBit F)) :
    ∀ vals : List Bool, bits.map (fun b => b.value) = vals.map some →
      bits.map (fun b => b.value.get!) = vals := by
  induction bits with
  | nil => intro vals h; cases vals with
    | nil => rfl
    | cons a t => simp at h
  | cons b rest ih =>
    intro vals h
    cases vals with
    | nil => simp at h
    | cons a t =>
      simp only [List.map_cons, List.cons.injEq] at h
      simp [h.1, ih t h.2]

theorem mem_of_map_value_some (bits : List (AllocatedBit F)) (vals : List Bool)
    (h : bits.map (fun b => b.value) = vals.map some) :
    ∀ b ∈ bits, b.value.isSome := by
  intro b hb
  have : b.value ∈ bits.map (fun b => b.value) := List.mem_map_of_mem _ hb
  rw [h] at this
  obtain ⟨a, _, ha⟩ := List.mem_map.mp this
  simp [← ha]

theorem numValue_of_all_some (chunk : List (AllocatedBit F))
    (h : ∀ b ∈ chunk, b.value.isSome) :
    numValue chunk = some (packBits (chunk.map (fun b => b.value.get!))) := by
  induction chunk with
  | nil => simp [numValue, packBits]
  | cons b rest ih =>
    obtain ⟨a, ha⟩ := Option.isSome_iff_exists.mp (h b (by simp))
    have hrec := ih (fun b2 hb2 => h b2 (by simp [hb2]))
    simp only [numValue, hrec, ha, packBits, List.map_cons, List.foldr_cons]
    rfl

theorem chunksOf_map {α β : Type} (f : α → β) (l : List α) :
    chunksOf (l.map f) = (chunksOf l).map (List.map f) := by
  induction l using chunksOf.induct with
  | case1 => simp [chunksOf]
  | case2 a rest ih =>
    have e1 : (a :: rest).map f = f a :: rest.map f := rfl
    rw [e1, chunksOf, chunksOf]
    simp only [List.map_cons]
    rw [← e1, ← List.map_take, ← List.map_drop, ih]

theorem mem_chunksOf {α : Type} (l : List α) :
    ∀ ch ∈ chunksOf l, ∀ b ∈ ch, b ∈ l := by
  induction l using chunksOf.induct with
  | case1 => simp [chunksOf]
  | case2 a rest ih =>
    intro ch hch b hb
    rw [chunksOf] at hch
    rcases List.mem_cons.mp hch with hceq | hmem
    · subst hceq
      exact List.take_subset _ _ hb
    · exact List.drop_subset _ _ (ih ch hmem b hb)

theorem packChunksM (chunks : List (List (AllocatedBit F))) :
    ∀ cs : CS F, cs.evalValues = true →
      (∀ ch ∈ chunks, ∀ b ∈ ch, b.value.isSome) →
      ∃ cs', chunks.foldlM packOneChunk cs = .ok cs' ∧
        cs'.evalValues = true ∧
        cs'.inputValues = cs.inputValues ++
          chunks.map (fun ch => packBits (ch.map (fun b => b.value.get!))) := by
  induction chunks with
  | nil => intro cs hm hall; exact ⟨cs, rfl, hm, by simp⟩
  | cons ch rest ih =>
    intro cs hm hall
    have hch := numValue_of_all_some ch (hall ch (by simp))
    obtain ⟨cs', hrun, he, hiv⟩ :=
      ih ⟨true, cs.numInputs + 1, cs.numAux,
        cs.constraints ++ [⟨lc1 (Var.input cs.numInputs), lc1 (Var.input 0),
          packLCAux 1 ch⟩],
        cs.inputValues ++ [packBits (ch.map (fun b => b.value.get!))],
        cs.auxValues⟩ rfl (fun c2 hc2 => hall c2 (by simp [hc2]))
    have hstep : packOneChunk cs ch = .ok
        ⟨true, cs.numInputs + 1, cs.numAux,
          cs.constraints ++ [⟨lc1 (Var.input cs.numInputs), lc1 (Var.input 0),
            packLCAux 1 ch⟩],
          cs.inputValues ++ [packBits (ch.map (fun b => b.value.get!))],
          cs.auxValues⟩ := by
      simp [packOneChunk, CS.allocInput, hm, hch, CS.enforce]
    refine ⟨cs', ?_, he, ?_⟩
    · rw [List.foldlM_cons, hstep, ok_bind]
      exact hrun
    · rw [hiv]
      simp


theorem packIntoInputs_eval (bits : List (AllocatedBit F)) (vals : List Bool)
    (hv : bits.map (fun b => b.value) = vals.map some) (cs : CS F)
    (hm : cs.evalValues = true) :
    ∃ cs', packIntoInputs bits cs = .ok cs' ∧
      cs'.evalValues = true ∧
      cs'.inputValues = cs.inputValues ++ computeMultipacking vals := by
  obtain ⟨cs', hrun, he, hiv⟩ :=
    packChunksM (chunksOf bits) cs hm
      (fun ch hch b hb =>
        mem_of_map_value_some bits vals hv b (mem_chunksOf bits ch hch b hb))
  refine ⟨cs', hrun, he, ?_⟩
  rw [hiv]
  have hvals : bits.map (fun b => b.value.get!) = vals := map_value_get! bits vals hv
  have h2 : (chunksOf bits).map (fun ch => packBits (ch.map (fun b => b.value.get!))) =
      computeMultipacking (F := F) vals := by
    rw [← hvals]
    simp only [computeMultipacking, chunksOf_map, List.map_map]
    rfl
  rw [h2]

/-! ## Claim C5: hash circuit public inputs match the reference packing -/

/-- C5: for every byte sequence, with the external sha256 gadget modelled by
its spec contract — it returns an ordered 256-bit digest whose boolean values
are the bits (`bytes_to_bits` order) of the standard digest `shaDigest data`
of the input, allocating only witness variables — the witness-carrying hash
circuit build succeeds, and its packed public-input values are exactly
`compute_multipacking (bytes_to_bits (shaDigest data))`, the very vector the
reference evaluator (`eval_sha256`) computes independently of the constraint
system and verifies against. -/
theorem sha256_packed_inputs_match_reference (shaDigest : List Nat → List Nat)
    (gadget : ShaGadget F) (data : List Nat)
    (hG : ∀ bits cs, ∃ out cs', gadget bits cs = .ok (out, cs') ∧
        out.map (fun b => b.value) = (bytesToBits (shaDigest data)).map some ∧
        cs'.evalValues = cs.evalValues ∧ cs'.inputValues = cs.inputValues) :
    ∃ cs', Sha256Demo.synthesize gadget ⟨data⟩ (CS.init F true) = .ok cs' ∧
      cs'.inputValues = 1 :: computeMultipacking (bytesToBits (shaDigest data)) := by
  obtain ⟨bs, cs1, h1run, h1val, h1var, h1e, h1ni, h1na, h1iv, h1av, h1con⟩ :=
    allocBits_eval data (CS.init F true) rfl
  obtain ⟨out, cs2, h2run, h2val, h2e, h2iv⟩ := hG bs cs1
  obtain ⟨cs3, h3run, h3e, h3iv⟩ :=
    packIntoInputs_eval out (bytesToBits (shaDigest data)) h2val cs2
      (by rw [h2e, h1e])
  refine ⟨cs3, ?_, ?_⟩
  · simp only [Sha256Demo.synthesize, h1run, ok_bind, h2run, unwrapE, h3run]
  · rw [h3iv, h2iv, h1iv]
    simp [CS.init]

theorem sha256_packed_inputs_match_reference_witness :
    ∃ cs', Sha256Demo.synthesize
        (F := ZMod 13)
        (fun _ cs => .ok ((bytesToBits (List.replicate 32 171)).map
          (fun b => ⟨Var.aux 0, some b⟩), cs))
        ⟨[7]⟩ (CS.init (ZMod 13) true) = .ok cs' ∧
      cs'.inputValues = 1 :: computeMultipacking
        (bytesToBits ((fun _ => List.replicate 32 171) [7])) :=
  sha256_packed_inputs_match_reference (fun _ => List.replicate 32 171) _ [7]
    (fun bits cs => ⟨_, cs, rfl, by simp [List.map_map], rfl, rfl⟩)

/-! ## Claim C8: error handling of the hash circuit builder -/

/-- C8 counterexample: an error returned by the hash-gadget collaborator is
NOT propagated unchanged to the builder's caller.  With a gadget that returns
`SynthesisError::AssignmentMissing`, `Sha256Demo::synthesize` aborts with the
(unwrap) panic — modelled `panicUnwrap` — instead of returning the gadget's
error, because the source calls `.unwrap()` on the gadget result
(bellman_sha256/src/main.rs:44) rather than using `?`. -/
theorem sha256_gadget_error_not_propagated :
    Sha256Demo.synthesize (F := ZMod 13)
        (fun _ _ => .error .assignmentMissing) ⟨[]⟩ (CS.init (ZMod 13) true)
      = .error .panicUnwrap ∧
    (Except.error SynthErr.panicUnwrap : Except SynthErr (CS (ZMod 13))) ≠
      .error .assignmentMissing := by
  refine ⟨rfl, ?_⟩
  intro h
  injection h with h2
  cases h2

/-- C8 amended: boolean-bit allocation always receives a concrete value
(`Some(...)`), so the bit-allocation phase always succeeds and can never
raise a missing-assignment error; an error returned by the hash-gadget
collaborator is not returned to the caller but unwrapped into a panic
(`panicUnwrap`); only the errors of the subsequent packing step are
propagated unchanged (the synthesize result is then exactly the packing
result, via `?`). -/
theorem sha256_error_path_amended (gadget : ShaGadget F) (e : SynthErr)
    (data : List Nat) (cs : CS F) (hm : cs.evalValues = true)
    (hg : ∀ bits cs0, gadget bits cs0 = .error e) :
    (∃ bs cs1, allocBits data cs = .ok (bs, cs1)) ∧
    Sha256Demo.synthesize gadget ⟨data⟩ cs = .error .panicUnwrap ∧
    (∀ (gadget2 : ShaGadget F) (bs : List (AllocatedBit F)) (cs1 : CS F)
        (out : List (AllocatedBit F)) (cs2 : CS F),
      allocBits data cs = .ok (bs, cs1) → gadget2 bs cs1 = .ok (out, cs2) →
      Sha256Demo.synthesize gadget2 ⟨data⟩ cs = packIntoInputs out cs2) := by
  obtain ⟨bs, cs1, h1run, _, _, h1e, _⟩ := allocBits_eval data cs hm
  refine ⟨⟨bs, cs1, h1run⟩, ?_, ?_⟩
  · simp only [Sha256Demo.synthesize, h1run, ok_bind, hg bs cs1, unwrapE, error_bind]
  · intro gadget2 bs2 cs12 out cs2 hrun2 hg2
    rw [h1run] at hrun2
    injection hrun2 with hp
    injection hp with hb hc
    subst hb; subst hc
    simp only [Sha256Demo.synthesize, h1run, ok_bind, hg2, unwrapE, error_bind]

theorem sha256_error_path_amended_witness :
    (∃ bs cs1, allocBits (F := ZMod 13) [0] (CS.init (ZMod 13) true) =
      .ok (bs, cs1)) ∧
    Sha256Demo.synthesize (F := ZMod 13) (fun _ _ => .error .assignmentMissing)
      ⟨[0]⟩ (CS.init (ZMod 13) true) = .error .panicUnwrap ∧
    (∀ (gadget2 : ShaGadget (ZMod 13)) (bs : List (AllocatedBit (ZMod 13)))
        (cs1 : CS (ZMod 13)) (out : List (AllocatedBit (ZMod 13)))
        (cs2 : CS (ZMod 13)),
      allocBits [0] (CS.init (ZMod 13) true) = .ok (bs, cs1) →
      gadget2 bs cs1 = .ok (out, cs2) →
      Sha256Demo.synthesize gadget2 ⟨[0]⟩ (CS.init (ZMod 13) true) =
        packIntoInputs out cs2) :=
  sha256_error_path_amended (fun _ _ => .error .assignmentMissing)
    .assignmentMissing [0] (CS.init (ZMod 13) true) rfl (fun _ _ => rfl)


/-! ## Claim C7: proof serialization round-trip in the benchmark harnesses -/

/-- C7 counterexample: it is NOT the case that every benchmark sample of both
harnesses verifies the proof obtained by serializing and then deserializing
the created proof.  The cipher harness does (`proof.write` then `Proof::read`
before `verify_proof`), but `eval_sha256` verifies the in-memory proof
directly with no round-trip: with a backend whose `proofRead` returns the
(recognizable) proof `999` and whose verifier accepts exactly `999`, the
cipher sample verifies `999` and accepts while the hash sample verifies the
original in-memory proof `1` and rejects — so the hash sample cannot be the
round-trip composition the claim asserts. -/
theorem sha256_bench_no_roundtrip_counterexample :
    ¬ (∀ (Params PVK Proof : Type) (b : Groth16Backend (ZMod 13) Params PVK Proof)
        (inputs : List (ZMod 13)),
      mimcBenchSample b inputs =
        (b.proofRead (b.proofWrite (b.createProof b.generateParameters))).map
          (fun pr => b.verifyProof (b.prepareVerifyingKey b.generateParameters)
            pr inputs) ∧
      sha256BenchSample b inputs =
        (b.proofRead (b.proofWrite (b.createProof b.generateParameters))).map
          (fun pr => b.verifyProof (b.prepareVerifyingKey b.generateParameters)
            pr inputs)) := by
  intro h
  have h2 := (h Unit Unit Nat
    ⟨(), fun _ => (), fun _ => 1, fun p => [p], fun _ => some 999,
      fun _ p _ => p == 999⟩ []).2
  simp [sha256BenchSample, Groth16Backend.proofRead, Groth16Backend.proofWrite,
    Groth16Backend.createProof, Groth16Backend.generateParameters,
    Groth16Backend.verifyProof, Groth16Backend.prepareVerifyingKey] at h2

/-- C7 amended: only the cipher benchmark serializes the created proof and
deserializes it before verification; under the backend round-trip property
(`proofRead` inverts `proofWrite`, the spec's round-trip contract), the
deserialized proof verifies identically to the original in-memory proof.
The hash benchmark performs no round-trip: it verifies the in-memory proof
directly. -/
theorem bench_roundtrip_amended {Params PVK Proof : Type}
    (b : Groth16Backend F Params PVK Proof) (inputs : List F)
    (hrt : ∀ p, b.proofRead (b.proofWrite p) = some p) :
    mimcBenchSample b inputs =
      (b.proofRead (b.proofWrite (b.createProof b.generateParameters))).map
        (fun pr => b.verifyProof (b.prepareVerifyingKey b.generateParameters)
          pr inputs) ∧
    mimcBenchSample b inputs =
      some (b.verifyProof (b.prepareVerifyingKey b.generateParameters)
        (b.createProof b.generateParameters) inputs) ∧
    sha256BenchSample b inputs =
      some (b.verifyProof (b.prepareVerifyingKey b.generateParameters)
        (b.createProof b.generateParameters) inputs) := by
  refine ⟨?_, ?_, rfl⟩
  · rw [mimcBenchSample, hrt]
    rfl
  · rw [mimcBenchSample, hrt]

theorem bench_roundtrip_amended_witness :
    mimcBenchSample (F := ZMod 13)
      (⟨(), fun _ => (), fun _ => 1, fun p => [p], fun l => l.head?,
        fun _ p _ => p == 1⟩ : Groth16Backend (ZMod 13) Unit Unit Nat) [] =
      ((⟨(), fun _ => (), fun _ => 1, fun p => [p], fun l => l.head?,
        fun _ p _ => p == 1⟩ : Groth16Backend (ZMod 13) Unit Unit Nat).proofRead
        ([1])).map (fun pr => pr == 1) ∧
    mimcBenchSample (F := ZMod 13)
      (⟨(), fun _ => (), fun _ => 1, fun p => [p], fun l => l.head?,
        fun _ p _ => p == 1⟩ : Groth16Backend (ZMod 13) Unit Unit Nat) [] =
      some (1 == 1) ∧
    sha256BenchSample (F := ZMod 13)
      (⟨(), fun _ => (), fun _ => 1, fun p => [p], fun l => l.head?,
        fun _ p _ => p == 1⟩ : Groth16Backend (ZMod 13) Unit Unit Nat) [] =
      some (1 == 1) :=
  bench_roundtrip_amended
    (⟨(), fun _ => (), fun _ => 1, fun p => [p], fun l => l.head?,
      fun _ p _ => p == 1⟩ : Groth16Backend (ZMod 13) Unit Unit Nat) []
    (fun p => rfl)


end SnarkBench
